import Mathlib

/-!
# Ring buffer over a doubled virtual mapping

A shallow embedding of `src/ring_buffer.c` (and the contract documented in
`include/ring_buffer.h`).

* `size_t` is 64 bits wide; its values are natural numbers below `2 ^ 64` and
  every `+`, `-` on it is taken modulo `2 ^ 64` (`size_add`, `size_sub`).
* A pointer is an address, a natural number.  The null pointer returned by
  `ring_buffer_read` is `none`.
* The shared file behind the two fixed mappings of `_create_buffer` is the
  field `store`; `translate` sends an address of either mapping to its
  offset in that file.  An access outside both mappings is a fault (`none`).
* The system calls of `_create_buffer` answer as a `platform` says; the
  descriptors and mappings they acquire are kept in a `process`.  The macro
  `fail()` is modelled for both builds, with and without `DEBUG`.
-/

namespace RingBuffer

/-- The type `byte_t`, a `typedef` of `uint8_t`. -/
abbrev byte_t := UInt8

/-- Number of values of `size_t`. -/
def SIZE_MOD : Nat := 2 ^ 64

/-- Addition of two `size_t` values. -/
def size_add (a b : Nat) : Nat := (a + b) % SIZE_MOD

/-- Subtraction of two `size_t` values (wraps below zero). -/
def size_sub (a b : Nat) : Nat := (a + SIZE_MOD - b) % SIZE_MOD

/-- The `struct ring_buffer`, together with the contents of the shared file
that `data` maps twice (`store i` is byte `i` of the file). -/
structure ring_buffer where
  size : Nat
  write_offset : Nat
  read_offset : Nat
  data : Nat
  store : Nat → byte_t

/-- Every `size_t` field holds a `size_t` value. -/
def size_t_fields (b : ring_buffer) : Prop :=
  b.size < SIZE_MOD ∧ b.write_offset < SIZE_MOD ∧ b.read_offset < SIZE_MOD

/-- The two fixed mappings of `_create_buffer`: `size` bytes at `data` and
`size` bytes at `data + size`, both onto the file from its offset 0. -/
def translate (b : ring_buffer) (addr : Nat) : Option Nat :=
  if b.data ≤ addr ∧ addr < b.data + b.size then some (addr - b.data)
  else if b.data + b.size ≤ addr ∧ addr < b.data + b.size + b.size then
    some (addr - (b.data + b.size))
  else none

/-- Load of one byte through the mapping. -/
def load (b : ring_buffer) (addr : Nat) : Option byte_t :=
  (translate b addr).map b.store

/-- Store of one byte through the mapping. -/
def poke (b : ring_buffer) (addr : Nat) (v : byte_t) : Option ring_buffer :=
  (translate b addr).map
    (fun o => { b with store := fun i => if i = o then v else b.store i })

/-- The call `memcpy(dst, src, n)` with `dst` inside the buffer's mapping:
bytes `src[0] .. src[n-1]` are stored at `dst .. dst + n - 1` in that order. -/
def memcpy (b : ring_buffer) (dst : Nat) (src : Nat → byte_t) : Nat → Option ring_buffer
  | 0 => some b
  | n + 1 => (memcpy b dst src n).bind (fun b1 => poke b1 (dst + n) (src n))

/-- Function `ring_buffer_get_size`. -/
def ring_buffer_get_size (buffer : ring_buffer) : Nat := buffer.size

/-- Function `ring_buffer_get_used`: `write_offset - read_offset`. -/
def ring_buffer_get_used (buffer : ring_buffer) : Nat :=
  size_sub buffer.write_offset buffer.read_offset

/-- Function `ring_buffer_get_free`: `size - ring_buffer_get_used(buffer)`. -/
def ring_buffer_get_free (buffer : ring_buffer) : Nat :=
  size_sub buffer.size (ring_buffer_get_used buffer)

/-- Function `ring_buffer_get_write_pointer`: `data + write_offset`. -/
def ring_buffer_get_write_pointer (buffer : ring_buffer) : Nat :=
  buffer.data + buffer.write_offset

/-- Function `ring_buffer_get_read_pointer`: `data + read_offset`. -/
def ring_buffer_get_read_pointer (buffer : ring_buffer) : Nat :=
  buffer.data + buffer.read_offset

/-- Function `ring_buffer_commit_write`: `write_offset += size`. -/
def ring_buffer_commit_write (buffer : ring_buffer) (size : Nat) : ring_buffer :=
  { buffer with write_offset := size_add buffer.write_offset size }

/-- Function `ring_buffer_write`; the result is the buffer after the call and
the returned `size_t`. -/
def ring_buffer_write (buffer : ring_buffer) (data : Nat → byte_t) (size : Nat) :
    Option (ring_buffer × Nat) :=
  if ring_buffer_get_free buffer < size then some (buffer, 0)
  else
    (memcpy buffer (ring_buffer_get_write_pointer buffer) data size).map
      (fun b1 => (ring_buffer_commit_write b1 size, size))

/-- Function `ring_buffer_commit_read`: advance `read_offset`, then subtract
`size` from both offsets when `read_offset >= size`. -/
def ring_buffer_commit_read (buffer : ring_buffer) (size : Nat) : ring_buffer :=
  let b1 := { buffer with read_offset := size_add buffer.read_offset size }
  if b1.read_offset ≥ b1.size then
    { b1 with read_offset := size_sub b1.read_offset b1.size,
              write_offset := size_sub b1.write_offset b1.size }
  else b1

/-- Function `ring_buffer_read`; the result is the buffer after the call and
the returned pointer (`none` is the null pointer). -/
def ring_buffer_read (buffer : ring_buffer) (size : Nat) : ring_buffer × Option Nat :=
  if ring_buffer_get_used buffer = 0 then (buffer, none)
  else
    let current_read_position := ring_buffer_get_read_pointer buffer
    (ring_buffer_commit_read buffer size, some current_read_position)

/-- Function `ring_buffer_clear`. -/
def ring_buffer_clear (buffer : ring_buffer) : ring_buffer :=
  { buffer with write_offset := 0, read_offset := 0 }

/-- The expression `1UL << order`.  For `order >= 64` the shift is undefined in
C; the code compiled for x86-64 takes the count modulo 64, and so does this
definition. -/
def one_shl (order : Nat) : Nat := (1 <<< (order % 64)) % SIZE_MOD

/-- State left by `ring_buffer_new(order)` when every step of `_create_buffer`
succeeds and the reservation `mmap` returns `addr`: `size = 1UL << order`, both
offsets 0, and a file that `ftruncate` extended with zero bytes. -/
def created (order addr : Nat) : ring_buffer :=
  { size := one_shl order, write_offset := 0, read_offset := 0,
    data := addr, store := fun _ => 0 }

/-! ### Creation and release -/

/-- The value `MAP_FAILED`, that is `(void *) -1`. -/
def MAP_FAILED : Nat := SIZE_MOD - 1

/-- What the platform answers to the system calls of `_create_buffer`:
`mkstemp` gives a descriptor (negative on failure), `unlink`, `ftruncate` and
`close` give a status, the reservation `mmap(NULL, len, PROT_NONE, ...)` and the
`MAP_FIXED` `mmap(addr, len, ...)` give an address, `none` for `MAP_FAILED`. -/
structure platform where
  page_size : Nat
  mkstemp : Int
  unlink : Int
  ftruncate : Nat → Int
  mmap_reserve : Nat → Option Nat
  mmap_fixed : Nat → Nat → Option Nat
  close : Int

/-- The resources of the process that the calls acquire and release: its open
descriptors and its mapped address ranges (start, length). -/
structure process where
  fds : List Int
  maps : List (Nat × Nat)

/-- How a function that may run into `fail()` ends: `assert(0)` stops the
program, `return` hands a value back. -/
inductive outcome (α : Type) where
  | aborted : outcome α
  | returned (v : α) : outcome α

/-- The call `munmap(addr, len)`: the ranges inside `[addr, addr + len)` are
gone. -/
def munmap (p : process) (addr len : Nat) : process :=
  { p with maps := p.maps.filter (fun m => ¬ (addr ≤ m.1 ∧ m.1 + m.2 ≤ addr + len)) }

/-- A `MAP_FIXED` mapping that landed at `addr` replaces pages of a range the
process already has; one that landed elsewhere is a new range. -/
def overlay (p : process) (addr : Nat) (got : Option Nat) (len : Nat) : process :=
  match got with
  | none => p
  | some r => if r = addr then p else { p with maps := (r, len) :: p.maps }

/-- The macro `fail()`: `assert(0)` when `DEBUG` is defined, `return 0;`
otherwise. -/
def fail (debug : Bool) (p : process) (buffer : ring_buffer) :
    outcome (process × ring_buffer × Nat) :=
  if debug then outcome.aborted else outcome.returned (p, buffer, 0)

/-- Function `_create_buffer`; the result is the process, the buffer and the
returned `size_t`. -/
def _create_buffer (debug : Bool) (os : platform) (p : process) (buffer : ring_buffer)
    (order : Nat) : outcome (process × ring_buffer × Nat) :=
  let file_descriptor := os.mkstemp
  if file_descriptor < 0 then fail debug p buffer
  else
    let p1 := { p with fds := file_descriptor :: p.fds }
    if os.unlink ≠ 0 then fail debug p1 buffer
    else
      let b1 := { buffer with size := one_shl order, write_offset := 0,
                              read_offset := 0 }
      if os.ftruncate b1.size ≠ 0 then fail debug p1 b1
      else
        let b2 := { b1 with store := fun _ => 0 }
        let length := (b2.size <<< 1) % SIZE_MOD
        match os.mmap_reserve length with
        | none => fail debug p1 { b2 with data := MAP_FAILED }
        | some data =>
          let b3 := { b2 with data := data }
          let p2 := { p1 with maps := (data, length) :: p1.maps }
          let address := os.mmap_fixed b3.data b3.size
          if address ≠ some b3.data then fail debug (overlay p2 b3.data address b3.size) b3
          else
            let address := os.mmap_fixed (b3.data + b3.size) b3.size
            if address ≠ some (b3.data + b3.size) then
              fail debug (overlay p2 (b3.data + b3.size) address b3.size) b3
            else
              if os.close ≠ 0 then fail debug p2 b3
              else
                outcome.returned ({ p2 with fds := p2.fds.erase file_descriptor }, b3, b3.size)

/-- Function `ring_buffer_free`: `munmap(data, size << 1)`, then the structure
is given back. -/
def ring_buffer_free (p : process) (buffer : ring_buffer) : process :=
  munmap p buffer.data ((buffer.size <<< 1) % SIZE_MOD)

/-- Function `ring_buffer_new`; `garbage` is what `malloc` left in the field
`data`, which is not set before `_create_buffer` runs. -/
def ring_buffer_new (debug : Bool) (os : platform) (p : process) (garbage order : Nat) :
    outcome (process × Option ring_buffer) :=
  let buffer : ring_buffer :=
    { size := one_shl order, read_offset := 0, write_offset := 0,
      data := garbage, store := fun _ => 0 }
  match _create_buffer debug os p buffer order with
  | outcome.aborted => outcome.aborted
  | outcome.returned (p1, b1, r) =>
      if r = 0 then outcome.returned (ring_buffer_free p1 b1, none)
      else outcome.returned (p1, some b1)

/-- Every step of `_create_buffer` succeeds and the reservation is at `addr`. -/
def all_steps_succeed (os : platform) (order addr : Nat) : Prop :=
  0 ≤ os.mkstemp ∧ os.unlink = 0 ∧ os.ftruncate (one_shl order) = 0 ∧
    os.mmap_reserve (((one_shl order) <<< 1) % SIZE_MOD) = some addr ∧
    os.mmap_fixed addr (one_shl order) = some addr ∧
    os.mmap_fixed (addr + one_shl order) (one_shl order)
      = some (addr + one_shl order) ∧
    os.close = 0

/-- A platform whose `mmap` hands out page-aligned addresses only and maps
`MAP_FIXED` at page-aligned addresses only. -/
def page_aligned_mmap (os : platform) : Prop :=
  (∀ len a, os.mmap_reserve len = some a → a % os.page_size = 0) ∧
    (∀ addr len r, os.mmap_fixed addr len = some r → addr % os.page_size = 0)

/-! ### Sequences of calls -/

/-- One call of the public interface on a buffer. -/
inductive Call where
  | write (data : Nat → byte_t) (size : Nat)
  | commit_write (size : Nat)
  | commit_read (size : Nat)
  | read (size : Nat)

/-- What a call hands back to its caller. -/
inductive Ret where
  | written (n : Nat)
  | pointer (p : Option Nat)
  | void

/-- Run one call: the buffer afterwards and the returned value, `none` when
the call faults. -/
def call (b : ring_buffer) : Call → Option (ring_buffer × Ret)
  | Call.write data size =>
      (ring_buffer_write b data size).map (fun r => (r.1, Ret.written r.2))
  | Call.commit_write size => some (ring_buffer_commit_write b size, Ret.void)
  | Call.commit_read size => some (ring_buffer_commit_read b size, Ret.void)
  | Call.read size =>
      some ((ring_buffer_read b size).1, Ret.pointer (ring_buffer_read b size).2)

/-- Run a sequence of calls from left to right, recording every call with its
returned value. -/
def run : ring_buffer → List Call → Option (ring_buffer × List (Call × Ret))
  | b, [] => some (b, [])
  | b, c :: cs =>
      match call b c with
      | none => none
      | some (b1, r) => (run b1 cs).map (fun p => (p.1, (c, r) :: p.2))

/-- The caller's obligation for one call: the size argument is a `size_t`,
`commit_write` passes at most `free()`, `commit_read` and `read` at most
`used()`.  `write` has no obligation. -/
def admissible (b : ring_buffer) : Call → Prop
  | Call.write _ size => size < SIZE_MOD
  | Call.commit_write size => size < SIZE_MOD ∧ size ≤ ring_buffer_get_free b
  | Call.commit_read size => size < SIZE_MOD ∧ size ≤ ring_buffer_get_used b
  | Call.read size => size < SIZE_MOD ∧ size ≤ ring_buffer_get_used b

/-- Every call of the sequence meets its obligation in the state it is made
in. -/
def Respects : ring_buffer → List Call → Prop
  | _, [] => True
  | b, c :: cs =>
      admissible b c ∧
        match call b c with
        | none => True
        | some (b1, _) => Respects b1 cs

/-- Bytes a call wrote: the value returned by `ring_buffer_write`, the size
passed to `ring_buffer_commit_write`. -/
def bytes_written : Call × Ret → Nat
  | (Call.write _ _, Ret.written n) => n
  | (Call.commit_write size, _) => size
  | _ => 0

/-- Bytes a call read: the size passed to `ring_buffer_commit_read`, the size
passed to a `ring_buffer_read` that did not return null. -/
def bytes_read : Call × Ret → Nat
  | (Call.commit_read size, _) => size
  | (Call.read size, Ret.pointer (some _)) => size
  | _ => 0

/-- Total over a recorded sequence. -/
def total (f : Call × Ret → Nat) (log : List (Call × Ret)) : Nat :=
  (log.map f).sum

/-- A state reached from a created buffer by calls that meet their
obligations. -/
def Reachable (b : ring_buffer) : Prop :=
  ∃ order addr cs log, 2 * 2 ^ order < SIZE_MOD ∧
    Respects (created order addr) cs ∧ run (created order addr) cs = some (b, log)

/-- The offsets are in order and `read_offset` is normalized. -/
def offsets_ok (b : ring_buffer) : Prop :=
  b.read_offset ≤ b.write_offset ∧ b.write_offset ≤ b.read_offset + b.size ∧
    b.read_offset < b.size ∧ 2 * b.size < SIZE_MOD

/-- The obligation of one call can be checked. -/
instance admissible_decidable (b : ring_buffer) : (c : Call) → Decidable (admissible b c)
  | Call.write _ size => inferInstanceAs (Decidable (size < SIZE_MOD))
  | Call.commit_write size =>
      inferInstanceAs (Decidable (size < SIZE_MOD ∧ size ≤ ring_buffer_get_free b))
  | Call.commit_read size =>
      inferInstanceAs (Decidable (size < SIZE_MOD ∧ size ≤ ring_buffer_get_used b))
  | Call.read size =>
      inferInstanceAs (Decidable (size < SIZE_MOD ∧ size ≤ ring_buffer_get_used b))

/-- The obligations of a sequence can be checked by running it. -/
instance respects_decidable : (b : ring_buffer) → (cs : List Call) → Decidable (Respects b cs)
  | _, [] => isTrue trivial
  | b, c :: cs =>
      @instDecidableAnd _ _ (admissible_decidable b c)
        (match call b c with
         | none => isTrue trivial
         | some (b1, _) => respects_decidable b1 cs)

/-- The states of a buffer in use: a created buffer, then any call that meets
its obligation, or `ring_buffer_clear`. -/
inductive Reached : ring_buffer → Prop where
  | fresh (order addr : Nat) (hk : 2 * 2 ^ order < SIZE_MOD) :
      Reached (RingBuffer.created order addr)
  | step (b b1 : ring_buffer) (c : Call) (r : Ret) (hb : Reached b)
      (ha : admissible b c) (hc : RingBuffer.call b c = some (b1, r)) : Reached b1
  | cleared (b : ring_buffer) (hb : Reached b) : Reached (ring_buffer_clear b)

/-! ### Accessors -/

/-- The accessor functions, which take the buffer and return a value. -/
inductive Query where
  | get_read_pointer
  | get_write_pointer
  | get_used
  | get_free
  | get_size

/-- Run one accessor: the buffer afterwards and the returned value.  None of
the five bodies assigns to the buffer or to memory. -/
def query (b : ring_buffer) : Query → ring_buffer × Nat
  | Query.get_read_pointer => (b, ring_buffer_get_read_pointer b)
  | Query.get_write_pointer => (b, ring_buffer_get_write_pointer b)
  | Query.get_used => (b, ring_buffer_get_used b)
  | Query.get_free => (b, ring_buffer_get_free b)
  | Query.get_size => (b, ring_buffer_get_size b)

/-- Run accessors one after the other, collecting the returned values. -/
def run_queries : ring_buffer → List Query → ring_buffer × List Nat
  | b, [] => (b, [])
  | b, q :: qs =>
      ((run_queries (query b q).1 qs).1,
        (query b q).2 :: (run_queries (query b q).1 qs).2)

/-- The `n` bytes a caller sees at address `p`. -/
def bytes_seen (b : ring_buffer) (p n : Nat) : List (Option byte_t) :=
  (List.range n).map (fun i => load b (p + i))

/-! ### The buffer as a queue -/

/-- The buffered bytes: those at offsets `read_offset .. write_offset - 1` of
the doubled mapping, the byte at an offset being byte `offset % size` of the
file. -/
def content (b : ring_buffer) : List byte_t :=
  (List.range (ring_buffer_get_used b)).map (fun i => b.store ((b.read_offset + i) % b.size))

/-- A bounded queue of bytes. -/
structure byte_queue where
  capacity : Nat
  bytes : List byte_t

/-- Append `D` when it fits, and say how many bytes were taken. -/
def byte_queue.enqueue (q : byte_queue) (D : List byte_t) : byte_queue × Nat :=
  if q.capacity - q.bytes.length < D.length then (q, 0)
  else ({ q with bytes := q.bytes ++ D }, D.length)

/-- Drop the `n` oldest bytes. -/
def byte_queue.dequeue (q : byte_queue) (n : Nat) : byte_queue :=
  { q with bytes := q.bytes.drop n }

/-- The queue a buffer stands for. -/
def as_queue (b : ring_buffer) : byte_queue :=
  { capacity := b.size, bytes := content b }

/-! ### Concrete buffers used in the examples below -/

/-- An address as the reservation `mmap` may return it. -/
def BASE : Nat := 0x7f0000000000

/-- A platform in the manner of Linux with 4096-byte pages on which every call
succeeds when it can: `mkstemp` gives descriptor 3, the reservation lands at
`BASE`, and `mmap` refuses a zero length and a `MAP_FIXED` address that is not
a multiple of the page size. -/
def linux : platform :=
  { page_size := 4096, mkstemp := 3, unlink := 0, ftruncate := fun _ => 0,
    mmap_reserve := fun len => if len = 0 then none else some BASE,
    mmap_fixed := fun addr len => if addr % 4096 = 0 ∧ len ≠ 0 then some addr else none,
    close := 0 }

/-- A platform that differs from `linux` in mapping `MAP_FIXED` at any
address. -/
def lenient : platform :=
  { linux with mmap_fixed := fun addr len => if len ≠ 0 then some addr else none }

/-- A platform that differs from `linux` in a full `/dev/shm`: `ftruncate`
fails. -/
def no_space : platform :=
  { linux with ftruncate := fun _ => -1 }

/-- A process with no descriptor and no mapping of its own yet. -/
def idle : process := { fds := [], maps := [] }

/-- A sequence of calls in the manner of the test "multiple writes followed by
one read" on a buffer of order 12: fill it, a refused write, a partial read, a
write across the nominal end, and reads up to a normalization. -/
def test_calls : List Call :=
  [Call.commit_write 4090, Call.write (fun _ => 7) 6, Call.write (fun _ => 7) 6,
   Call.read 1000, Call.write (fun i => if i < 5 then 8 else 9) 10,
   Call.commit_read 3090, Call.read 16]

/-- The bytes found at a pointer to a copy of the byte sequence `D`. -/
def bytes_at (D : List byte_t) : Nat → byte_t := fun i => D.getD i 0

/-- A run of 4094 equal bytes. -/
def fill_bytes : List byte_t := List.replicate 4094 7

/-- The buffer left by `test_calls` on a created buffer of order 12. -/
def after_test_calls : ring_buffer :=
  match run (created 12 BASE) test_calls with
  | some p => p.1
  | none => created 12 BASE

/-- The record of `test_calls` on a created buffer of order 12. -/
def test_log : List (Call × Ret) :=
  match run (created 12 BASE) test_calls with
  | some p => p.2
  | none => []


/-- The buffer after the first five calls of `test_calls`: 3106 bytes are
buffered across the nominal end. -/
def amid_test_calls : ring_buffer :=
  match run (created 12 BASE) (test_calls.take 5) with
  | some p => p.1
  | none => created 12 BASE

/-- The record of the first five calls of `test_calls`. -/
def amid_log : List (Call × Ret) :=
  match run (created 12 BASE) (test_calls.take 5) with
  | some p => p.2
  | none => []

/-- A buffer of order 12 filled to its capacity. -/
def full_buffer : ring_buffer :=
  { size := 4096, write_offset := 4096, read_offset := 0, data := BASE, store := fun _ => 0 }

/-- A buffer of order 12 holding ten bytes, as left by one write of ten bytes
on the created buffer. -/
def ten_bytes : ring_buffer :=
  { size := 4096, write_offset := 10, read_offset := 0, data := BASE,
    store := fun i => if i < 10 then 65 else 0 }

/-- A buffer of order 12 after `ring_buffer_commit_write(buffer, 12288)` on
the created, empty buffer. -/
def overcommitted : ring_buffer := ring_buffer_commit_write (created 12 BASE) 12288

/-! ### Arithmetic of `size_t` -/

theorem size_sub_of_le {a b : Nat} (ha : a < SIZE_MOD) (h : b ≤ a) : size_sub a b = a - b := by
  unfold size_sub SIZE_MOD at *
  omega

theorem size_sub_lt (a b : Nat) : size_sub a b < SIZE_MOD := by
  unfold size_sub SIZE_MOD
  omega

theorem size_sub_self {a : Nat} : size_sub a a = 0 := by
  unfold size_sub SIZE_MOD
  omega

theorem used_lt (b : ring_buffer) : ring_buffer_get_used b < SIZE_MOD :=
  size_sub_lt _ _

/-! ### Rejections -/

/-- C5: when `ring_buffer_get_free(buffer) < n`, `ring_buffer_write` returns 0
and the buffer (offsets, size, every stored byte) is unchanged; in particular a
buffer with `used() == size` rejects every write of positive length and its
`used()` stays the same. -/
theorem write_beyond_free_rejected (b : ring_buffer) (data : Nat → byte_t) :
    (∀ n, ring_buffer_get_free b < n → ring_buffer_write b data n = some (b, 0)) ∧
    (ring_buffer_get_used b = b.size → ∀ n, 0 < n →
      ∃ b1, ring_buffer_write b data n = some (b1, 0) ∧ b1 = b ∧
        ring_buffer_get_used b1 = ring_buffer_get_used b) := by
  have key : ∀ n, ring_buffer_get_free b < n → ring_buffer_write b data n = some (b, 0) := by
    intro n h
    simp [ring_buffer_write, h]
  refine ⟨key, ?_⟩
  intro hfull n hn
  refine ⟨b, key n ?_, rfl, rfl⟩
  have : ring_buffer_get_free b = 0 := by
    unfold ring_buffer_get_free
    rw [hfull]
    exact size_sub_self
  omega

theorem write_beyond_free_rejected_witness :
    ring_buffer_get_free ten_bytes < 5000 ∧
    ring_buffer_write ten_bytes (fun _ => 1) 5000 = some (ten_bytes, 0) ∧
    ring_buffer_get_used full_buffer = full_buffer.size ∧
    ∃ b1, ring_buffer_write full_buffer (fun _ => 1) 1 = some (b1, 0) ∧ b1 = full_buffer ∧
        ring_buffer_get_used b1 = ring_buffer_get_used full_buffer :=
  ⟨by decide,
   (write_beyond_free_rejected ten_bytes (fun _ => 1)).1 5000 (by decide),
   by decide,
   (write_beyond_free_rejected full_buffer (fun _ => 1)).2 (by decide) 1 (by decide)⟩

/-- C6: on a buffer with `used() == 0`, `ring_buffer_read` returns the null
pointer for every requested size and leaves the buffer as it was (no offset
moved, nothing normalized), so `used()` is still 0. -/
theorem read_on_empty_rejected (b : ring_buffer) (n : Nat)
    (h : ring_buffer_get_used b = 0) :
    ring_buffer_read b n = (b, none) ∧
      ring_buffer_get_used (ring_buffer_read b n).1 = 0 := by
  have e : ring_buffer_read b n = (b, none) := by simp [ring_buffer_read, h]
  rw [e]
  exact ⟨rfl, h⟩

theorem read_on_empty_rejected_witness :
    ring_buffer_read (created 16 BASE) 10 = (created 16 BASE, none) ∧
      ring_buffer_get_used (ring_buffer_read (created 16 BASE) 10).1 = 0 :=
  read_on_empty_rejected (created 16 BASE) 10 (by decide)

/-- C7 (the code at the failing input): with ten bytes buffered, a read of
eleven bytes is not refused; it returns the read pointer, moves `read_offset`
past `write_offset`, and `used()` wraps to `2 ^ 64 - 1`. -/
theorem read_beyond_used_not_rejected :
    ring_buffer_get_used ten_bytes = 10 ∧
    (ring_buffer_read ten_bytes 11).2 = some BASE ∧
    (ring_buffer_read ten_bytes 11).1.read_offset = 11 ∧
    (ring_buffer_read ten_bytes 11).1.write_offset = 10 ∧
    ring_buffer_get_used (ring_buffer_read ten_bytes 11).1 = 2 ^ 64 - 1 := by
  decide

/-- C8: on a buffer with `used() > 0`, `ring_buffer_read(buffer, n)` returns
the address `ring_buffer_get_read_pointer` gave before the call
(`data + read_offset`) and leaves the buffer as `ring_buffer_commit_read(buffer, n)`
does, for every `n`: `n` is not compared with `used()`. -/
theorem read_is_pointer_then_commit (b : ring_buffer) (n : Nat)
    (h : 0 < ring_buffer_get_used b) :
    (ring_buffer_read b n).2 = some (ring_buffer_get_read_pointer b) ∧
    ring_buffer_get_read_pointer b = b.data + b.read_offset ∧
    (ring_buffer_read b n).1 = ring_buffer_commit_read b n := by
  have h0 : ring_buffer_get_used b ≠ 0 := by omega
  simp [ring_buffer_read, h0, ring_buffer_get_read_pointer]

theorem read_is_pointer_then_commit_witness :
    (ring_buffer_read ten_bytes 4).2 = some (ring_buffer_get_read_pointer ten_bytes) ∧
    ring_buffer_get_read_pointer ten_bytes = ten_bytes.data + ten_bytes.read_offset ∧
    (ring_buffer_read ten_bytes 4).1 = ring_buffer_commit_read ten_bytes 4 :=
  read_is_pointer_then_commit ten_bytes 4 (by decide)

/-! ### Normalization -/

/-- C10 (as stated, refuted): in the buffer left by an unchecked
`ring_buffer_commit_write` of 12288 on an empty buffer of size 4096,
`read_offset = 0 < size` and `8192 <= used()`, yet after
`ring_buffer_commit_read(buffer, 8192)` the read offset is 4096, not below
`size`. -/
theorem commit_read_offset_not_normalized :
    overcommitted.read_offset < overcommitted.size ∧
    8192 ≤ ring_buffer_get_used overcommitted ∧
    (ring_buffer_commit_read overcommitted 8192).size = overcommitted.size ∧
    ¬ (ring_buffer_commit_read overcommitted 8192).read_offset < overcommitted.size := by
  decide

/-- C10 (amended): `ring_buffer_commit_read(buffer, n)` changes `used()` to
the old `used()` minus `n` modulo `2 ^ 64` in every state, on either branch,
and to the ordinary difference when `n <= used()`; when moreover
`used() <= size` and `read_offset < size`, the new `read_offset` is below
`size` again. -/
theorem commit_read_preserves_used (b : ring_buffer) (n : Nat)
    (hb : size_t_fields b) (hn : n < SIZE_MOD) :
    ring_buffer_get_used (ring_buffer_commit_read b n) = size_sub (ring_buffer_get_used b) n ∧
    (n ≤ ring_buffer_get_used b →
      ring_buffer_get_used (ring_buffer_commit_read b n) = ring_buffer_get_used b - n) ∧
    (n ≤ ring_buffer_get_used b → ring_buffer_get_used b ≤ b.size → b.read_offset < b.size →
      (ring_buffer_commit_read b n).read_offset < b.size) := by
  obtain ⟨hs, hw, hr⟩ := hb
  have main : ring_buffer_get_used (ring_buffer_commit_read b n)
      = size_sub (ring_buffer_get_used b) n := by
    unfold ring_buffer_commit_read ring_buffer_get_used
    simp only [ge_iff_le]
    split
    · rename_i hge
      simp only [size_sub, size_add, SIZE_MOD] at *
      omega
    · simp only [size_sub, size_add, SIZE_MOD] at *
      omega
  refine ⟨main, ?_, ?_⟩
  · intro hle
    rw [main, size_sub_of_le (used_lt b) hle]
  · intro hle hcap hlt
    unfold ring_buffer_commit_read
    unfold ring_buffer_get_used at hle hcap
    simp only [ge_iff_le]
    split
    · rename_i hge
      simp only [size_sub, size_add, SIZE_MOD] at *
      omega
    · rename_i hge
      simp only [size_sub, size_add, SIZE_MOD] at *
      omega

theorem commit_read_preserves_used_witness :
    size_t_fields full_buffer ∧ 4096 ≤ ring_buffer_get_used full_buffer ∧
    ring_buffer_get_used (ring_buffer_commit_read full_buffer 4096)
        = size_sub (ring_buffer_get_used full_buffer) 4096 ∧
    ring_buffer_get_used (ring_buffer_commit_read full_buffer 4096)
        = ring_buffer_get_used full_buffer - 4096 ∧
    (ring_buffer_commit_read full_buffer 4096).read_offset < full_buffer.size :=
  have hf : size_t_fields full_buffer := ⟨by decide, by decide, by decide⟩
  have h := commit_read_preserves_used full_buffer 4096 hf (by decide)
  ⟨hf, by decide, h.1, h.2.1 (by decide), h.2.2 (by decide) (by decide) (by decide)⟩

/-! ### The doubled mapping and `memcpy` -/

/-- Inside the doubled mapping the byte at offset `off` is byte `off % size` of
the file. -/
theorem translate_offset (b : ring_buffer) (off : Nat) (h : off < 2 * b.size) :
    translate b (b.data + off) = some (off % b.size) := by
  unfold translate
  by_cases h1 : off < b.size
  · have c : b.data ≤ b.data + off ∧ b.data + off < b.data + b.size := by omega
    rw [if_pos c, Nat.mod_eq_of_lt h1]
    congr 1
    omega
  · have c : ¬ (b.data ≤ b.data + off ∧ b.data + off < b.data + b.size) := by omega
    have d : b.data + b.size ≤ b.data + off ∧ b.data + off < b.data + b.size + b.size := by
      omega
    have e : off % b.size = off - b.size := by
      rw [Nat.mod_eq_sub_mod (by omega), Nat.mod_eq_of_lt (by omega)]
    rw [if_neg c, if_pos d, e]
    congr 1
    omega

/-- Outside the doubled mapping there is nothing to access. -/
theorem translate_outside (b : ring_buffer) (off : Nat) (h : 2 * b.size ≤ off) :
    translate b (b.data + off) = none := by
  unfold translate
  have c : ¬ (b.data ≤ b.data + off ∧ b.data + off < b.data + b.size) := by omega
  have d : ¬ (b.data + b.size ≤ b.data + off ∧ b.data + off < b.data + b.size + b.size) := by
    omega
  rw [if_neg c, if_neg d]

theorem load_offset (b : ring_buffer) (off : Nat) (h : off < 2 * b.size) :
    load b (b.data + off) = some (b.store (off % b.size)) := by
  simp [load, translate_offset b off h]

/-- Two offsets less than `size` apart do not alias. -/
theorem offsets_distinct {size off i j : Nat} (hij : i < j) (hlt : j - i < size) :
    (off + i) % size ≠ (off + j) % size := by
  intro h
  have h1 : (off + i) ≡ (off + j) [MOD size] := h
  have h2 : i ≡ j [MOD size] := Nat.ModEq.add_left_cancel' off h1
  have h3 : size ∣ j - i := (Nat.modEq_iff_dvd' (Nat.le_of_lt hij)).mp h2
  have h4 : size ≤ j - i := Nat.le_of_dvd (by omega) h3
  omega

/-- What `memcpy` of at most `size` bytes into the doubled mapping does: it
does not fault, touches only the file, puts `src[i]` at offset `off + i`, and
leaves every file byte that is not a target as it was. -/
theorem memcpy_spec (b : ring_buffer) (off : Nat) (src : Nat → byte_t) (n : Nat)
    (hin : off + n ≤ 2 * b.size) (hn : n ≤ b.size) :
    ∃ st, memcpy b (b.data + off) src n = some { b with store := st } ∧
      (∀ i, i < n → st ((off + i) % b.size) = src i) ∧
      (∀ j, (∀ i, i < n → j ≠ (off + i) % b.size) → st j = b.store j) := by
  induction n with
  | zero =>
    refine ⟨b.store, rfl, ?_, ?_⟩
    · intro i hi
      omega
    · intro j _
      rfl
  | succ n ih =>
    obtain ⟨st, hst, hnew, hold⟩ := ih (by omega) (by omega)
    have ht : translate { b with store := st } (b.data + off + n)
        = some ((off + n) % b.size) := by
      have := translate_offset { b with store := st } (off + n) (by simp only; omega)
      simpa [Nat.add_assoc] using this
    refine ⟨fun i => if i = (off + n) % b.size then src n else st i, ?_, ?_, ?_⟩
    · simp [memcpy, hst, poke, ht]
    · intro i hi
      by_cases hin : i = n
      · subst hin
        simp
      · have hne : (off + i) % b.size ≠ (off + n) % b.size :=
          offsets_distinct (by omega) (by omega)
        simp only [hne, if_false]
        exact hnew i (by omega)
    · intro j hj
      have hne : j ≠ (off + n) % b.size := hj n (by omega)
      simp only [hne, if_false]
      exact hold j (fun i hi => hj i (by omega))

/-! ### One call on a buffer whose offsets are in order -/

theorem used_eq {b : ring_buffer} (h : offsets_ok b) :
    ring_buffer_get_used b = b.write_offset - b.read_offset := by
  obtain ⟨h1, h2, h3, h4⟩ := h
  unfold ring_buffer_get_used
  exact size_sub_of_le (by omega) h1

theorem free_eq {b : ring_buffer} (h : offsets_ok b) :
    ring_buffer_get_free b = b.size - (b.write_offset - b.read_offset) := by
  unfold ring_buffer_get_free
  rw [used_eq h]
  obtain ⟨h1, h2, h3, h4⟩ := h
  exact size_sub_of_le (by omega) (by omega)

theorem created_size {order addr : Nat} (hk : 2 * 2 ^ order < SIZE_MOD) :
    (created order addr).size = 2 ^ order := by
  have hlt : order < 64 := by
    by_contra hge
    have : 2 ^ 64 ≤ 2 ^ order := Nat.pow_le_pow_right (by decide) (by omega)
    unfold SIZE_MOD at hk
    omega
  show one_shl order = 2 ^ order
  unfold one_shl
  rw [Nat.mod_eq_of_lt hlt, Nat.shiftLeft_eq, Nat.one_mul]
  exact Nat.mod_eq_of_lt (by omega)

theorem created_ok {order : Nat} (addr : Nat) (hk : 2 * 2 ^ order < SIZE_MOD) :
    offsets_ok (created order addr) := by
  have hs : (created order addr).size = 2 ^ order := created_size hk
  have hpos : 0 < 2 ^ order := Nat.pow_pos (by decide)
  refine ⟨Nat.le_refl _, Nat.le_add_right _ _, ?_, ?_⟩
  · rw [hs]
    exact hpos
  · rw [hs]
    exact hk

/-- An accepted write: no fault, the data lands at the old write offset, only
`write_offset` and the targeted file bytes change. -/
theorem write_accepted {b : ring_buffer} (data : Nat → byte_t) {n : Nat}
    (h : offsets_ok b) (hn : n ≤ ring_buffer_get_free b) :
    ∃ st, ring_buffer_write b data n
        = some ({ b with store := st, write_offset := b.write_offset + n }, n) ∧
      (∀ i, i < n → st ((b.write_offset + i) % b.size) = data i) ∧
      (∀ j, (∀ i, i < n → j ≠ (b.write_offset + i) % b.size) → st j = b.store j) := by
  have hfree := free_eq h
  obtain ⟨h1, h2, h3, h4⟩ := h
  obtain ⟨st, hst, hnew, hold⟩ :=
    memcpy_spec b b.write_offset data n (by omega) (by omega)
  refine ⟨st, ?_, hnew, hold⟩
  have hno : ¬ ring_buffer_get_free b < n := by omega
  have hadd : size_add b.write_offset n = b.write_offset + n := by
    unfold size_add
    exact Nat.mod_eq_of_lt (by omega)
  simp [ring_buffer_write, hno, ring_buffer_get_write_pointer, hst,
    ring_buffer_commit_write, hadd]

theorem commit_write_ok {b : ring_buffer} {n : Nat}
    (h : offsets_ok b) (hn : n ≤ ring_buffer_get_free b) :
    ring_buffer_commit_write b n = { b with write_offset := b.write_offset + n } := by
  have hfree := free_eq h
  obtain ⟨h1, h2, h3, h4⟩ := h
  have hadd : size_add b.write_offset n = b.write_offset + n := by
    unfold size_add
    exact Nat.mod_eq_of_lt (by omega)
  simp [ring_buffer_commit_write, hadd]

/-- Advancing `write_offset` by at most `free()` keeps the offsets in order. -/
theorem advance_write_ok {b : ring_buffer} {n : Nat} (st : Nat → byte_t)
    (h : offsets_ok b) (hn : n ≤ ring_buffer_get_free b) :
    offsets_ok { b with store := st, write_offset := b.write_offset + n } ∧
      ring_buffer_get_used { b with store := st, write_offset := b.write_offset + n }
        = ring_buffer_get_used b + n := by
  have hfree := free_eq h
  have hused := used_eq h
  have h' := h
  obtain ⟨h1, h2, h3, h4⟩ := h
  have ok : offsets_ok { b with store := st, write_offset := b.write_offset + n } := by
    refine ⟨?_, ?_, h3, h4⟩
    · show b.read_offset ≤ b.write_offset + n
      omega
    · show b.write_offset + n ≤ b.read_offset + b.size
      omega
  refine ⟨ok, ?_⟩
  rw [used_eq ok, hused]
  show b.write_offset + n - b.read_offset = b.write_offset - b.read_offset + n
  omega

/-- A commit of at most `used()` bytes keeps the offsets in order, whether or
not it normalizes. -/
theorem commit_read_ok {b : ring_buffer} {n : Nat}
    (h : offsets_ok b) (hn : n ≤ ring_buffer_get_used b) :
    offsets_ok (ring_buffer_commit_read b n) ∧
      (ring_buffer_commit_read b n).size = b.size ∧
      (ring_buffer_commit_read b n).data = b.data ∧
      (ring_buffer_commit_read b n).store = b.store ∧
      (ring_buffer_commit_read b n).read_offset = (b.read_offset + n) % b.size ∧
      ring_buffer_get_used (ring_buffer_commit_read b n) + n = ring_buffer_get_used b := by
  have hused := used_eq h
  obtain ⟨h1, h2, h3, h4⟩ := h
  have hadd : size_add b.read_offset n = b.read_offset + n := by
    unfold size_add
    exact Nat.mod_eq_of_lt (by omega)
  by_cases hc : b.size ≤ b.read_offset + n
  · have e : ring_buffer_commit_read b n
        = { b with read_offset := b.read_offset + n - b.size,
                   write_offset := b.write_offset - b.size } := by
      have e1 : size_sub (b.read_offset + n) b.size = b.read_offset + n - b.size :=
        size_sub_of_le (by omega) hc
      have e2 : size_sub b.write_offset b.size = b.write_offset - b.size :=
        size_sub_of_le (by omega) (by omega)
      simp [ring_buffer_commit_read, hadd, hc, e1, e2]
    have ok : offsets_ok (ring_buffer_commit_read b n) := by
      rw [e]
      refine ⟨?_, ?_, ?_, h4⟩
      · show b.read_offset + n - b.size ≤ b.write_offset - b.size
        omega
      · show b.write_offset - b.size ≤ b.read_offset + n - b.size + b.size
        omega
      · show b.read_offset + n - b.size < b.size
        omega
    have hm : (b.read_offset + n) % b.size = b.read_offset + n - b.size := by
      rw [Nat.mod_eq_sub_mod hc, Nat.mod_eq_of_lt (by omega)]
    refine ⟨ok, by rw [e], by rw [e], by rw [e], by rw [e, hm], ?_⟩
    rw [used_eq ok, hused, e]
    show b.write_offset - b.size - (b.read_offset + n - b.size) + n
      = b.write_offset - b.read_offset
    omega
  · have e : ring_buffer_commit_read b n = { b with read_offset := b.read_offset + n } := by
      simp [ring_buffer_commit_read, hadd, hc]
    have ok : offsets_ok (ring_buffer_commit_read b n) := by
      rw [e]
      refine ⟨?_, ?_, ?_, h4⟩
      · show b.read_offset + n ≤ b.write_offset
        omega
      · show b.write_offset ≤ b.read_offset + n + b.size
        omega
      · show b.read_offset + n < b.size
        omega
    have hm : (b.read_offset + n) % b.size = b.read_offset + n :=
      Nat.mod_eq_of_lt (by omega)
    refine ⟨ok, by rw [e], by rw [e], by rw [e], by rw [e, hm], ?_⟩
    rw [used_eq ok, hused, e]
    show b.write_offset - (b.read_offset + n) + n = b.write_offset - b.read_offset
    omega

/-! ### Sequences of calls that meet their obligations -/

/-- One admissible call does not fault, keeps the offsets in order and changes
`used()` by the bytes it wrote minus the bytes it read. -/
theorem call_ok {b : ring_buffer} (c : Call) (h : offsets_ok b) (ha : admissible b c) :
    ∃ b1 r, call b c = some (b1, r) ∧ offsets_ok b1 ∧ b1.size = b.size ∧ b1.data = b.data ∧
      ring_buffer_get_used b1 + bytes_read (c, r)
        = ring_buffer_get_used b + bytes_written (c, r) := by
  cases c with
  | write data n =>
    by_cases hf : ring_buffer_get_free b < n
    · refine ⟨b, Ret.written 0, ?_, h, rfl, rfl, rfl⟩
      simp [call, ring_buffer_write, hf]
    · obtain ⟨st, hst, -, -⟩ := write_accepted data h (Nat.le_of_not_lt hf)
      obtain ⟨ok, hu⟩ := advance_write_ok st h (Nat.le_of_not_lt hf)
      refine ⟨_, Ret.written n, ?_, ok, rfl, rfl, ?_⟩
      · simp [call, hst]
      · simpa [bytes_read, bytes_written] using hu
  | commit_write n =>
    obtain ⟨ok, hu⟩ := advance_write_ok b.store h ha.2
    refine ⟨_, Ret.void, ?_, ok, rfl, rfl, ?_⟩
    · simp [call, commit_write_ok h ha.2]
    · simpa [bytes_read, bytes_written] using hu
  | commit_read n =>
    obtain ⟨ok, hs, hd, -, -, hu⟩ := commit_read_ok h ha.2
    refine ⟨_, Ret.void, rfl, ok, hs, hd, ?_⟩
    simpa [bytes_read, bytes_written] using hu
  | read n =>
    by_cases h0 : ring_buffer_get_used b = 0
    · refine ⟨b, Ret.pointer none, ?_, h, rfl, rfl, rfl⟩
      simp [call, ring_buffer_read, h0]
    · obtain ⟨ok, hs, hd, -, -, hu⟩ := commit_read_ok h ha.2
      refine ⟨_, Ret.pointer (some (ring_buffer_get_read_pointer b)), ?_, ok, hs, hd, ?_⟩
      · simp [call, ring_buffer_read, h0]
      · simpa [bytes_read, bytes_written] using hu

/-- A sequence of admissible calls runs to its end without a fault, keeps the
offsets in order, and `used()` follows the bytes written and read. -/
theorem run_ok (cs : List Call) :
    ∀ b : ring_buffer, offsets_ok b → Respects b cs →
      ∃ b1 log, run b cs = some (b1, log) ∧ offsets_ok b1 ∧ b1.size = b.size ∧
        b1.data = b.data ∧
        ring_buffer_get_used b1 + total bytes_read log
          = ring_buffer_get_used b + total bytes_written log := by
  induction cs with
  | nil =>
    intro b h _
    exact ⟨b, [], rfl, h, rfl, rfl, rfl⟩
  | cons c cs ih =>
    intro b h hr
    obtain ⟨ha, hrest⟩ := hr
    obtain ⟨b1, r, hc, ok1, hs1, hd1, hu1⟩ := call_ok c h ha
    rw [hc] at hrest
    obtain ⟨b2, log, hrun, ok2, hs2, hd2, hu2⟩ := ih b1 ok1 hrest
    refine ⟨b2, (c, r) :: log, ?_, ok2, by rw [hs2, hs1], by rw [hd2, hd1], ?_⟩
    · simp [run, hc, hrun]
    · simp only [total, List.map_cons, List.sum_cons] at *
      omega

/-- A sequence that meets its obligations does so up to any point. -/
theorem respects_take (cs : List Call) :
    ∀ (b : ring_buffer) (m : Nat), Respects b cs → Respects b (cs.take m) := by
  induction cs with
  | nil =>
    intro b m h
    simpa using h
  | cons c cs ih =>
    intro b m h
    cases m with
    | zero => simp [Respects]
    | succ m =>
      obtain ⟨ha, hrest⟩ := h
      refine ⟨ha, ?_⟩
      cases hc : call b c with
      | none => trivial
      | some p =>
        rw [hc] at hrest
        exact ih p.1 m hrest

/-- The record of a run lists the calls that were made, in order. -/
theorem run_log_calls (cs : List Call) :
    ∀ (b b1 : ring_buffer) (log : List (Call × Ret)),
      run b cs = some (b1, log) → log.map Prod.fst = cs := by
  induction cs with
  | nil =>
    intro b b1 log h
    simp only [run, Option.some.injEq, Prod.mk.injEq] at h
    rw [← h.2]
    rfl
  | cons c cs ih =>
    intro b b1 log h
    unfold run at h
    cases hc : call b c with
    | none =>
      rw [hc] at h
      cases h
    | some p =>
      rw [hc] at h
      cases hrun : run p.1 cs with
      | none =>
        simp [hrun] at h
      | some q =>
        simp only [hrun, Option.map_some', Option.some.injEq, Prod.mk.injEq] at h
        rw [← h.2]
        have := ih p.1 q.1 q.2 hrun
        simp [this]

theorem reachable_ok {b : ring_buffer} (h : Reachable b) : offsets_ok b := by
  obtain ⟨order, addr, cs, log, hk, hr, hrun⟩ := h
  obtain ⟨b1, log1, hrun1, ok, -⟩ := run_ok cs _ (created_ok addr hk) hr
  rw [hrun] at hrun1
  cases hrun1
  exact ok

/-- C1: from a created buffer of capacity `2 ^ order` (with `2 * 2 ^ order`
a `size_t`), after every call of a sequence of `write` (any data and size),
`commit_write(n)` with `n <= free()`, `commit_read(n)` and `read(n)` with
`n <= used()`: the calls so far have run without a fault,
`read_offset <= write_offset <= read_offset + capacity`, `used()` is the
unwrapped difference of the offsets and `used() <= capacity`. -/
theorem used_within_capacity (order addr : Nat) (cs : List Call) (m : Nat)
    (hk : 2 * 2 ^ order < SIZE_MOD) (hr : Respects (created order addr) cs) :
    ∃ b log, run (created order addr) (cs.take m) = some (b, log) ∧
      ring_buffer_get_size b = 2 ^ order ∧
      b.read_offset ≤ b.write_offset ∧ b.write_offset ≤ b.read_offset + 2 ^ order ∧
      ring_buffer_get_used b = b.write_offset - b.read_offset ∧
      0 ≤ ring_buffer_get_used b ∧ ring_buffer_get_used b ≤ 2 ^ order := by
  obtain ⟨b, log, hrun, ok, hs, -, -⟩ :=
    run_ok (cs.take m) _ (created_ok addr hk) (respects_take cs _ m hr)
  have hsz : b.size = 2 ^ order := by rw [hs, created_size hk]
  have hu := used_eq ok
  obtain ⟨h1, h2, h3, h4⟩ := ok
  refine ⟨b, log, hrun, hsz, h1, ?_, hu, Nat.zero_le _, ?_⟩
  · rw [← hsz]
    exact h2
  · rw [hu, ← hsz]
    omega

/-- C2: after a sequence of calls from a created buffer that meets the
obligations, `used()` is the total of the bytes written (values returned by
`write`, sizes given to `commit_write`) minus the total of the bytes read
(sizes given to `commit_read` and to the `read` calls that returned a non-null
pointer), however often `commit_read` normalized. -/
theorem used_is_written_minus_read (order addr : Nat) (cs : List Call)
    (hk : 2 * 2 ^ order < SIZE_MOD) (hr : Respects (created order addr) cs) :
    ∃ b log, run (created order addr) cs = some (b, log) ∧
      log.map Prod.fst = cs ∧
      total bytes_read log ≤ total bytes_written log ∧
      ring_buffer_get_used b = total bytes_written log - total bytes_read log := by
  obtain ⟨b, log, hrun, -, -, -, hu⟩ := run_ok cs _ (created_ok addr hk) hr
  have h0 : ring_buffer_get_used (created order addr) = 0 := size_sub_self
  rw [h0] at hu
  exact ⟨b, log, hrun, run_log_calls cs _ b log hrun, by omega, by omega⟩

theorem used_within_capacity_witness :
    ∃ b log, run (created 12 BASE) (test_calls.take 5) = some (b, log) ∧
      ring_buffer_get_size b = 2 ^ 12 ∧
      b.read_offset ≤ b.write_offset ∧ b.write_offset ≤ b.read_offset + 2 ^ 12 ∧
      ring_buffer_get_used b = b.write_offset - b.read_offset ∧
      0 ≤ ring_buffer_get_used b ∧ ring_buffer_get_used b ≤ 2 ^ 12 :=
  used_within_capacity 12 BASE test_calls 5 (by decide) (by decide)

theorem used_is_written_minus_read_witness :
    ∃ b log, run (created 12 BASE) test_calls = some (b, log) ∧
      log.map Prod.fst = test_calls ∧
      total bytes_read log ≤ total bytes_written log ∧
      ring_buffer_get_used b = total bytes_written log - total bytes_read log :=
  used_is_written_minus_read 12 BASE test_calls (by decide) (by decide)

/-! ### Writing and reading back -/

theorem bytes_at_eq (D : List byte_t) {i : Nat} (h : i < D.length) :
    some (bytes_at D i) = D[i]? := by
  simp [bytes_at, List.getD, List.getElem?_eq_getElem h]

/-- An accepted write, seen from the state it leaves. -/
theorem write_accepted_state {b : ring_buffer} (data : Nat → byte_t) {n : Nat}
    (h : offsets_ok b) (hn : n ≤ ring_buffer_get_free b) :
    ∃ b1, ring_buffer_write b data n = some (b1, n) ∧ offsets_ok b1 ∧
      b1.size = b.size ∧ b1.data = b.data ∧ b1.read_offset = b.read_offset ∧
      b1.write_offset = b.write_offset + n ∧
      ring_buffer_get_used b1 = ring_buffer_get_used b + n ∧
      (∀ i, i < n → b1.store ((b.write_offset + i) % b.size) = data i) ∧
      (∀ j, (∀ i, i < n → j ≠ (b.write_offset + i) % b.size) → b1.store j = b.store j) := by
  obtain ⟨st, hw, hnew, hold⟩ := write_accepted data h hn
  obtain ⟨ok, hu⟩ := advance_write_ok st h hn
  exact ⟨_, hw, ok, rfl, rfl, rfl, rfl, hu, hnew, hold⟩

/-- A read of `n > 0` available bytes returns the old read pointer and commits;
seen from the state it leaves. -/
theorem read_accepted_state {b : ring_buffer} {n : Nat} (h : offsets_ok b) (hpos : 0 < n)
    (hn : n ≤ ring_buffer_get_used b) :
    ∃ b1, ring_buffer_read b n = (b1, some (b.data + b.read_offset)) ∧ offsets_ok b1 ∧
      b1.size = b.size ∧ b1.data = b.data ∧ b1.store = b.store ∧
      b1.read_offset = (b.read_offset + n) % b.size ∧
      ring_buffer_get_used b1 + n = ring_buffer_get_used b := by
  have h0 : ring_buffer_get_used b ≠ 0 := by omega
  have e : ring_buffer_read b n
      = (ring_buffer_commit_read b n, some (b.data + b.read_offset)) := by
    simp [ring_buffer_read, h0, ring_buffer_get_read_pointer]
  obtain ⟨ok, hs, hd, hst, hro, hu⟩ := commit_read_ok h hn
  exact ⟨_, e, ok, hs, hd, hst, hro, hu⟩

/-- Writing `n > 0` bytes into an empty buffer and reading `n` bytes at once:
both calls succeed, the read returns the old read pointer, the bytes found
there are the data, and the buffer is empty again with its read offset
advanced by `n` modulo `size`. -/
theorem round_trip_core {b : ring_buffer} (data : Nat → byte_t) {n : Nat}
    (ok : offsets_ok b) (h0 : ring_buffer_get_used b = 0) (hpos : 0 < n) (hn : n ≤ b.size) :
    ∃ b1 b2, ring_buffer_write b data n = some (b1, n) ∧
      b1.write_offset = b.write_offset + n ∧ b1.data = b.data ∧
      ring_buffer_read b1 n = (b2, some (b.data + b.read_offset)) ∧
      offsets_ok b2 ∧ b2.size = b.size ∧ b2.data = b.data ∧
      b2.read_offset = (b.read_offset + n) % b.size ∧
      b2.write_offset = b2.read_offset ∧ ring_buffer_get_used b2 = 0 ∧
      (∀ i, i < n → load b2 (b.data + b.read_offset + i) = some (data i)) := by
  have hfree := free_eq ok
  have hused := used_eq ok
  have hnf : n ≤ ring_buffer_get_free b := by
    rw [hfree, ← hused, h0]
    exact hn
  obtain ⟨b1, hw, ok1, hs1, hd1, hr1, hw1, hu1, hnew, -⟩ := write_accepted_state data ok hnf
  rw [h0, Nat.zero_add] at hu1
  obtain ⟨b2, hr, ok2, hs2, hd2, hst2, hro2, hu2⟩ :=
    read_accepted_state ok1 hpos (Nat.le_of_eq hu1.symm)
  have hu2z : ring_buffer_get_used b2 = 0 := by omega
  have hused2 := used_eq ok2
  obtain ⟨h1, h2, h3, h4⟩ := ok
  have hwr : b.write_offset = b.read_offset := by omega
  have hwr2 : b2.write_offset = b2.read_offset := by
    obtain ⟨g1, -, -, -⟩ := ok2
    omega
  refine ⟨b1, b2, hw, hw1, hd1, ?_, ok2, by rw [hs2, hs1], by rw [hd2, hd1], ?_, hwr2, hu2z, ?_⟩
  · rw [hr, hd1, hr1]
  · rw [hro2, hr1, hs1]
  · intro i hi
    have hl := load_offset b2 (b.read_offset + i) (by rw [hs2, hs1]; omega)
    have hb1 := hnew i hi
    rw [hwr] at hb1
    rw [hd2, hd1, hs2, hst2, hs1, hb1] at hl
    rw [Nat.add_assoc]
    exact hl

/-- C9: in a state whose offsets satisfy the invariant of the data model
(`read_offset <= write_offset <= read_offset + size`, `read_offset < size`,
`2 * size` a `size_t`), a write of `n <= free()` bytes returns `n`, the `n`
bytes are then found at the old write pointer (offsets `write_offset ..
write_offset + n - 1` of the doubled mapping), `write_offset` has advanced by
`n`, `read_offset`, `size` and `data` are unchanged, `used()` has grown and
`free()` has shrunk by `n`. -/
theorem write_stores_and_advances (b : ring_buffer) (data : Nat → byte_t) (n : Nat)
    (h : offsets_ok b) (hn : n ≤ ring_buffer_get_free b) :
    ∃ b1, ring_buffer_write b data n = some (b1, n) ∧
      (∀ i, i < n → load b1 (ring_buffer_get_write_pointer b + i) = some (data i)) ∧
      b1.write_offset = b.write_offset + n ∧ b1.read_offset = b.read_offset ∧
      b1.size = b.size ∧ b1.data = b.data ∧
      ring_buffer_get_used b1 = ring_buffer_get_used b + n ∧
      ring_buffer_get_free b1 = ring_buffer_get_free b - n := by
  obtain ⟨st, hw, hnew, -⟩ := write_accepted data h hn
  obtain ⟨ok, hu⟩ := advance_write_ok st h hn
  have hf1 := free_eq ok
  have hf := free_eq h
  have hub := used_eq h
  have hub1 := used_eq ok
  obtain ⟨h1, h2, h3, h4⟩ := h
  refine ⟨_, hw, ?_, rfl, rfl, rfl, rfl, hu, ?_⟩
  · intro i hi
    have hl := load_offset { b with store := st, write_offset := b.write_offset + n }
      (b.write_offset + i) (by show b.write_offset + i < 2 * b.size; omega)
    rw [ring_buffer_get_write_pointer, Nat.add_assoc]
    rw [show ({ b with store := st, write_offset := b.write_offset + n } : ring_buffer).data
      = b.data from rfl] at hl
    rw [hl]
    exact congrArg some (hnew i hi)
  · rw [hf1, hf]
    show b.size - (b.write_offset + n - b.read_offset)
      = b.size - (b.write_offset - b.read_offset) - n
    omega

theorem write_stores_and_advances_witness :
    ∃ b1, ring_buffer_write ten_bytes (fun _ => 66) 4086 = some (b1, 4086) ∧
      (∀ i, i < 4086 → load b1 (ring_buffer_get_write_pointer ten_bytes + i) = some 66) ∧
      b1.write_offset = ten_bytes.write_offset + 4086 ∧
      b1.read_offset = ten_bytes.read_offset ∧
      b1.size = ten_bytes.size ∧ b1.data = ten_bytes.data ∧
      ring_buffer_get_used b1 = ring_buffer_get_used ten_bytes + 4086 ∧
      ring_buffer_get_free b1 = ring_buffer_get_free ten_bytes - 4086 :=
  write_stores_and_advances ten_bytes (fun _ => 66) 4086
    ⟨by decide, by decide, by decide, by decide⟩ (by decide)

/-- C3: in a reachable state with `used() == 0` (wherever `read_offset` is),
writing a byte sequence `D` of length at most `size` and reading `len(D)` bytes
at once: the write returns `len(D)`, the read returns the old read pointer
(when `D` is not empty), the `len(D)` bytes at the returned pointer are those
of `D`, and `used()` is 0 again. -/
theorem write_then_read_round_trip (b : ring_buffer) (D : List byte_t)
    (hb : Reachable b) (h0 : ring_buffer_get_used b = 0) (hD : D.length ≤ b.size) :
    ∃ b1 b2 p, ring_buffer_write b (bytes_at D) D.length = some (b1, D.length) ∧
      ring_buffer_read b1 D.length = (b2, p) ∧
      (0 < D.length → p = some (ring_buffer_get_read_pointer b)) ∧
      (∀ i, i < D.length → ∃ a, p = some a ∧ load b2 (a + i) = D[i]?) ∧
      ring_buffer_get_used b2 = 0 := by
  have ok := reachable_ok hb
  by_cases hpos : 0 < D.length
  · obtain ⟨b1, b2, hw, -, -, hr, -, -, -, -, -, hu, hl⟩ :=
      round_trip_core (bytes_at D) ok h0 hpos hD
    refine ⟨b1, b2, _, hw, hr, fun _ => rfl, ?_, hu⟩
    intro i hi
    exact ⟨_, rfl, by rw [hl i hi, bytes_at_eq D hi]⟩
  · have hz : D.length = 0 := by omega
    have hn : D.length ≤ ring_buffer_get_free b := by
      rw [hz]
      exact Nat.zero_le _
    obtain ⟨b1, hw, -, -, -, -, -, hu1, -, -⟩ := write_accepted_state (bytes_at D) ok hn
    rw [h0, hz] at hu1
    have hr : ring_buffer_read b1 D.length = (b1, none) := by
      simp [ring_buffer_read, hu1]
    refine ⟨b1, b1, none, hw, hr, fun h => absurd h hpos, ?_, hu1⟩
    intro i hi
    omega

theorem write_then_read_round_trip_witness :
    ∃ b1 b2 p, ring_buffer_write after_test_calls (bytes_at [104, 105, 33]) 3 = some (b1, 3) ∧
      ring_buffer_read b1 3 = (b2, p) ∧
      (0 < 3 → p = some (ring_buffer_get_read_pointer after_test_calls)) ∧
      (∀ i, i < 3 → ∃ a, p = some a ∧ load b2 (a + i) = [104, 105, 33][i]?) ∧
      ring_buffer_get_used b2 = 0 :=
  write_then_read_round_trip after_test_calls [104, 105, 33]
    ⟨12, BASE, test_calls, test_log, by decide, by decide, rfl⟩ (by decide) (by decide)

/-- C4: on a created buffer of capacity `C = 2 ^ order`, for `1 <= k <= C / 2`,
`A` of length `C - k` and `B` of length `2 * k`: `write(A)` and `read(C - k)`
succeed, `write(B)` returns `2 * k` and goes to offsets `C - k .. C + k - 1`
(across the nominal end `C`), `read(2 * k)` returns the pointer to offset
`C - k`, at which the `2 * k` bytes of the doubled mapping are those of `B`;
afterwards `read_offset` is normalized to `k` and `used()` is 0. -/
theorem write_across_end_round_trip (order addr k : Nat) (A B : List byte_t)
    (hk : 2 * 2 ^ order < SIZE_MOD) (h1 : 1 ≤ k) (h2 : k ≤ 2 ^ order / 2)
    (hA : A.length = 2 ^ order - k) (hB : B.length = 2 * k) :
    ∃ b1 b2 b3 b4,
      ring_buffer_write (created order addr) (bytes_at A) A.length = some (b1, 2 ^ order - k) ∧
      ring_buffer_read b1 (2 ^ order - k) = (b2, some addr) ∧
      ring_buffer_get_write_pointer b2 = addr + (2 ^ order - k) ∧
      ring_buffer_write b2 (bytes_at B) B.length = some (b3, 2 * k) ∧
      b3.write_offset = 2 ^ order + k ∧
      ring_buffer_read b3 (2 * k) = (b4, some (addr + (2 ^ order - k))) ∧
      (∀ i, i < 2 * k → load b4 (addr + (2 ^ order - k) + i) = B[i]?) ∧
      b4.read_offset = k ∧ b4.write_offset = k ∧ ring_buffer_get_used b4 = 0 := by
  have ok0 := created_ok addr hk
  have hs0 : (created order addr).size = 2 ^ order := created_size hk
  have hu0 : ring_buffer_get_used (created order addr) = 0 := size_sub_self
  obtain ⟨b1, b2, hw1, -, -, hr2, ok2, hs2, hd2, hro2, hwo2, hu2, -⟩ :=
    round_trip_core (bytes_at A) ok0 hu0 (show 0 < A.length by omega)
      (show A.length ≤ _ by rw [hs0]; omega)
  have hro2v : b2.read_offset = 2 ^ order - k := by
    rw [hro2, hs0, hA]
    show (0 + (2 ^ order - k)) % 2 ^ order = 2 ^ order - k
    rw [Nat.zero_add]
    exact Nat.mod_eq_of_lt (by omega)
  have hd2v : b2.data = addr := hd2
  have hs2v : b2.size = 2 ^ order := by rw [hs2, hs0]
  obtain ⟨b3, b4, hw3, hwo3, -, hr4, ok4, hs4, hd4, hro4, hwo4, hu4, hl4⟩ :=
    round_trip_core (bytes_at B) ok2 hu2 (show 0 < B.length by omega)
      (show B.length ≤ _ by rw [hs2v]; omega)
  have hro4v : b4.read_offset = k := by
    rw [hro4, hs2v, hro2v, hB,
      show 2 ^ order - k + 2 * k = 2 ^ order + k by omega, Nat.add_mod_left]
    exact Nat.mod_eq_of_lt (by omega)
  refine ⟨b1, b2, b3, b4, ?_, ?_, ?_, ?_, ?_, ?_, ?_, hro4v, by rw [hwo4, hro4v], hu4⟩
  · rw [hw1, hA]
  · rw [← hA, hr2]
    rfl
  · rw [ring_buffer_get_write_pointer, hd2v, hwo2, hro2v]
  · rw [hw3, hB]
  · rw [hwo3, hwo2, hro2v, hB]
    omega
  · rw [← hB, hr4, hd2v, hro2v]
  · intro i hi
    have := hl4 i (by omega)
    rw [hd2v, hro2v, bytes_at_eq B (by omega)] at this
    exact this

theorem write_across_end_round_trip_witness :
    ∃ b1 b2 b3 b4,
      ring_buffer_write (created 12 BASE) (bytes_at fill_bytes) fill_bytes.length
        = some (b1, 2 ^ 12 - 2) ∧
      ring_buffer_read b1 (2 ^ 12 - 2) = (b2, some BASE) ∧
      ring_buffer_get_write_pointer b2 = BASE + (2 ^ 12 - 2) ∧
      ring_buffer_write b2 (bytes_at [1, 2, 3, 4]) [1, 2, 3, 4].length = some (b3, 2 * 2) ∧
      b3.write_offset = 2 ^ 12 + 2 ∧
      ring_buffer_read b3 (2 * 2) = (b4, some (BASE + (2 ^ 12 - 2))) ∧
      (∀ i, i < 2 * 2 → load b4 (BASE + (2 ^ 12 - 2) + i) = [1, 2, 3, 4][i]?) ∧
      b4.read_offset = 2 ∧ b4.write_offset = 2 ∧ ring_buffer_get_used b4 = 0 :=
  write_across_end_round_trip 12 BASE 2 fill_bytes [1, 2, 3, 4]
    (by decide) (by decide) (by decide) (List.length_replicate 4094 7) rfl

/-! ### Every access stays inside the doubled mapping -/

theorem clear_ok {b : ring_buffer} (h : offsets_ok b) : offsets_ok (ring_buffer_clear b) := by
  obtain ⟨h1, h2, h3, h4⟩ := h
  refine ⟨Nat.le_refl _, Nat.zero_le _, ?_, h4⟩
  show 0 < b.size
  omega

theorem reached_ok {b : ring_buffer} (h : Reached b) : offsets_ok b := by
  induction h with
  | fresh order addr hk => exact created_ok addr hk
  | step b b1 c r _ ha hc ih =>
    obtain ⟨b2, r2, hc2, ok, -⟩ := call_ok c ih ha
    rw [hc] at hc2
    cases hc2
    exact ok
  | cleared b _ ih => exact clear_ok ih

/-- Running calls that meet their obligations stays among the reached states. -/
theorem run_reached (cs : List Call) :
    ∀ (b b1 : ring_buffer) (log : List (Call × Ret)),
      Reached b → Respects b cs → run b cs = some (b1, log) → Reached b1 := by
  induction cs with
  | nil =>
    intro b b1 log hb _ hrun
    simp only [run, Option.some.injEq, Prod.mk.injEq] at hrun
    rw [← hrun.1]
    exact hb
  | cons c cs ih =>
    intro b b1 log hb hr hrun
    obtain ⟨ha, hrest⟩ := hr
    unfold run at hrun
    cases hc : call b c with
    | none =>
      rw [hc] at hrun
      cases hrun
    | some p =>
      rw [hc] at hrun hrest
      cases hq : run p.1 cs with
      | none => simp [hq] at hrun
      | some q =>
        simp only [hq, Option.map_some', Option.some.injEq, Prod.mk.injEq] at hrun
        rw [← hrun.1]
        exact ih p.1 q.1 q.2 (Reached.step b p.1 c p.2 hb ha hc) hrest hq

theorem reachable_reached {b : ring_buffer} (h : Reachable b) : Reached b := by
  obtain ⟨order, addr, cs, log, hk, hr, hrun⟩ := h
  exact run_reached cs _ b log (Reached.fresh order addr hk) hr hrun

/-- C11: in every state reached from a created buffer by calls that meet their
obligations (or by `ring_buffer_clear`), `read_offset < size` and
`write_offset <= read_offset + size`, so `write_offset + free()` and
`read_offset + used()` are at most `2 * size`, which is a `size_t`; each of
the `free()` bytes at the write pointer and of the `used()` bytes at the read
pointer is inside the doubled mapping, at file offset `offset % size`. -/
theorem spans_inside_mapping (b : ring_buffer) (h : Reached b) :
    b.read_offset < b.size ∧ b.write_offset ≤ b.read_offset + b.size ∧
    b.write_offset + ring_buffer_get_free b ≤ 2 * b.size ∧
    b.read_offset + ring_buffer_get_used b ≤ 2 * b.size ∧
    2 * b.size < SIZE_MOD ∧
    (∀ i, i < ring_buffer_get_free b →
      translate b (ring_buffer_get_write_pointer b + i) = some ((b.write_offset + i) % b.size)) ∧
    (∀ i, i < ring_buffer_get_used b →
      translate b (ring_buffer_get_read_pointer b + i) = some ((b.read_offset + i) % b.size)) := by
  have ok := reached_ok h
  have hu := used_eq ok
  have hf := free_eq ok
  obtain ⟨h1, h2, h3, h4⟩ := ok
  refine ⟨h3, h2, by omega, by omega, h4, ?_, ?_⟩
  · intro i hi
    rw [ring_buffer_get_write_pointer, Nat.add_assoc]
    exact translate_offset b _ (by omega)
  · intro i hi
    rw [ring_buffer_get_read_pointer, Nat.add_assoc]
    exact translate_offset b _ (by omega)

theorem spans_inside_mapping_witness :
    amid_test_calls.read_offset < amid_test_calls.size ∧
    amid_test_calls.write_offset ≤ amid_test_calls.read_offset + amid_test_calls.size ∧
    amid_test_calls.write_offset + ring_buffer_get_free amid_test_calls
      ≤ 2 * amid_test_calls.size ∧
    amid_test_calls.read_offset + ring_buffer_get_used amid_test_calls
      ≤ 2 * amid_test_calls.size ∧
    2 * amid_test_calls.size < SIZE_MOD ∧
    (∀ i, i < ring_buffer_get_free amid_test_calls →
      translate amid_test_calls (ring_buffer_get_write_pointer amid_test_calls + i)
        = some ((amid_test_calls.write_offset + i) % amid_test_calls.size)) ∧
    (∀ i, i < ring_buffer_get_used amid_test_calls →
      translate amid_test_calls (ring_buffer_get_read_pointer amid_test_calls + i)
        = some ((amid_test_calls.read_offset + i) % amid_test_calls.size)) :=
  spans_inside_mapping amid_test_calls
    (reachable_reached ⟨12, BASE, test_calls.take 5, amid_log, by decide, by decide, rfl⟩)

/-! ### Clear -/

/-- C12: after `ring_buffer_clear`, whatever the offsets were, both offsets are
0, `used()` is 0 and `free()` is `size`; `size`, `data` and the file are as
before, and a following write of up to `size` bytes is accepted and found at
the start of the mapping. -/
theorem clear_resets (b : ring_buffer) (hs : b.size < SIZE_MOD) :
    (ring_buffer_clear b).write_offset = 0 ∧ (ring_buffer_clear b).read_offset = 0 ∧
    ring_buffer_get_used (ring_buffer_clear b) = 0 ∧
    ring_buffer_get_free (ring_buffer_clear b) = b.size ∧
    (ring_buffer_clear b).size = b.size ∧ (ring_buffer_clear b).data = b.data ∧
    (ring_buffer_clear b).store = b.store ∧
    (∀ (data : Nat → byte_t) (n : Nat), n ≤ b.size →
      ∃ b1, ring_buffer_write (ring_buffer_clear b) data n = some (b1, n) ∧
        ring_buffer_get_used b1 = n ∧
        ∀ i, i < n → load b1 (ring_buffer_get_read_pointer b1 + i) = some (data i)) := by
  have hu : ring_buffer_get_used (ring_buffer_clear b) = 0 := size_sub_self
  have hf : ring_buffer_get_free (ring_buffer_clear b) = b.size := by
    unfold ring_buffer_get_free
    rw [hu]
    exact size_sub_of_le hs (Nat.zero_le _)
  refine ⟨rfl, rfl, hu, hf, rfl, rfl, rfl, ?_⟩
  intro data n hn
  obtain ⟨st, hst, hnew, -⟩ :=
    memcpy_spec (ring_buffer_clear b) 0 data n
      (by show 0 + n ≤ 2 * b.size; omega) hn
  have hno : ¬ ring_buffer_get_free (ring_buffer_clear b) < n := by
    rw [hf]
    omega
  have hadd : size_add 0 n = n := by
    unfold size_add
    rw [Nat.zero_add]
    exact Nat.mod_eq_of_lt (by omega)
  have hw : ring_buffer_write (ring_buffer_clear b) data n
      = some ({ ring_buffer_clear b with store := st, write_offset := n }, n) := by
    have hp : ring_buffer_get_write_pointer (ring_buffer_clear b)
        = (ring_buffer_clear b).data + 0 := rfl
    simp only [ring_buffer_write, hno, if_false, hp, hst, Option.map_some',
      ring_buffer_commit_write]
    rw [show (ring_buffer_clear b).write_offset = 0 from rfl, hadd]
  refine ⟨_, hw, ?_, ?_⟩
  · show size_sub n 0 = n
    exact size_sub_of_le (by omega) (Nat.zero_le _)
  · intro i hi
    have hl := load_offset { ring_buffer_clear b with store := st, write_offset := n } i
      (by show i < 2 * b.size; omega)
    have hv := hnew i hi
    rw [Nat.zero_add] at hv
    show load _ (b.data + 0 + i) = some (data i)
    rw [Nat.add_zero]
    rw [show ({ ring_buffer_clear b with store := st, write_offset := n } : ring_buffer).data
      = b.data from rfl] at hl
    rw [hl]
    exact congrArg some hv

theorem clear_resets_witness :
    (ring_buffer_clear overcommitted).write_offset = 0 ∧
    (ring_buffer_clear overcommitted).read_offset = 0 ∧
    ring_buffer_get_used (ring_buffer_clear overcommitted) = 0 ∧
    ring_buffer_get_free (ring_buffer_clear overcommitted) = overcommitted.size ∧
    ∃ b1, ring_buffer_write (ring_buffer_clear overcommitted) (fun _ => 1) 4096
        = some (b1, 4096) ∧
      ring_buffer_get_used b1 = 4096 ∧
      ∀ i, i < 4096 → load b1 (ring_buffer_get_read_pointer b1 + i) = some 1 :=
  have h := clear_resets overcommitted (by decide)
  ⟨h.1, h.2.1, h.2.2.1, h.2.2.2.1, h.2.2.2.2.2.2.2 (fun _ => 1) 4096 (by decide)⟩

/-! ### Accessors -/

theorem query_state (b : ring_buffer) (q : Query) : (query b q).1 = b := by
  cases q <;> rfl

theorem run_queries_spec (qs : List Query) :
    ∀ b : ring_buffer, (run_queries b qs).1 = b ∧
      (run_queries b qs).2 = qs.map (fun q => (query b q).2) := by
  induction qs with
  | nil =>
    intro b
    exact ⟨rfl, rfl⟩
  | cons q qs ih =>
    intro b
    have h := ih (query b q).1
    rw [query_state] at h
    simp only [run_queries, List.map_cons, query_state]
    exact ⟨h.1, by rw [h.2]⟩

/-- C13: the accessors (`get_read_pointer`, `get_write_pointer`, `get_used`,
`get_free`, `get_size`) leave every field and every stored byte as they were:
after any number of them the buffer is the same, each call returned what it
returns on the first call, `k` calls of `get_read_pointer` return
`data + read_offset` `k` times, and the `used()` bytes seen at the read pointer
and `used()` itself are the same. -/
theorem accessors_change_nothing (b : ring_buffer) (qs : List Query) (k : Nat) :
    (run_queries b qs).1 = b ∧
    (run_queries b qs).2 = qs.map (fun q => (query b q).2) ∧
    (run_queries b (List.replicate k Query.get_read_pointer)).2
      = List.replicate k (b.data + b.read_offset) ∧
    bytes_seen (run_queries b qs).1 (ring_buffer_get_read_pointer (run_queries b qs).1)
        (ring_buffer_get_used (run_queries b qs).1)
      = bytes_seen b (ring_buffer_get_read_pointer b) (ring_buffer_get_used b) ∧
    ring_buffer_get_used (run_queries b qs).1 = ring_buffer_get_used b := by
  have h := run_queries_spec qs b
  have hk := (run_queries_spec (List.replicate k Query.get_read_pointer) b).2
  refine ⟨h.1, h.2, ?_, by rw [h.1], by rw [h.1]⟩
  rw [hk, List.map_replicate]
  rfl

/-! ### Unchecked commits -/

/-- C17: the commits do not check their argument.  On the created (reachable)
buffer of order 12, `ring_buffer_commit_write` with `4097 > free()` leaves
`used() = 4097 > size`, and `ring_buffer_commit_read` with `1 > used()` moves
`read_offset` beyond `write_offset`, the subtraction wraps and
`used() = 2 ^ 64 - 1 > size`. -/
theorem commits_are_unchecked :
    (∃ b n, Reachable b ∧ n < SIZE_MOD ∧ ring_buffer_get_free b < n ∧
      ring_buffer_get_size b < ring_buffer_get_used (ring_buffer_commit_write b n)) ∧
    (∃ b n, Reachable b ∧ n < SIZE_MOD ∧ ring_buffer_get_used b < n ∧
      (ring_buffer_commit_read b n).write_offset < (ring_buffer_commit_read b n).read_offset ∧
      ring_buffer_get_used (ring_buffer_commit_read b n) = 2 ^ 64 - 1 ∧
      ring_buffer_get_size b < ring_buffer_get_used (ring_buffer_commit_read b n)) := by
  have hr : Reachable (created 12 BASE) := ⟨12, BASE, [], [], by decide, trivial, rfl⟩
  exact ⟨⟨created 12 BASE, 4097, hr, by decide, by decide, by decide⟩,
    ⟨created 12 BASE, 1, hr, by decide, by decide, by decide, by decide, by decide⟩⟩

/-! ### Creation -/

/-- In a build without `DEBUG`, `_create_buffer` always returns. -/
theorem create_buffer_returns (os : platform) (p : process) (buffer : ring_buffer)
    (order : Nat) :
    ∃ p1 b1 r, _create_buffer false os p buffer order = outcome.returned (p1, b1, r) := by
  unfold _create_buffer
  simp only [fail, Bool.false_eq_true, if_false]
  repeat' split
  all_goals exact ⟨_, _, _, rfl⟩

/-- When `_create_buffer` returns a value other than 0, every step has
succeeded: the buffer is the created one, the descriptor is closed and the
reservation is the one range the process has gained. -/
theorem create_buffer_nonzero {debug : Bool} {os : platform} {p p1 : process}
    {buffer b1 : ring_buffer} {order r : Nat}
    (h : _create_buffer debug os p buffer order = outcome.returned (p1, b1, r))
    (hr : r ≠ 0) :
    all_steps_succeed os order b1.data ∧ b1 = created order b1.data ∧
      r = one_shl order ∧
      p1 = { fds := p.fds,
             maps := (b1.data, ((one_shl order) <<< 1) % SIZE_MOD) :: p.maps } := by
  unfold _create_buffer at h
  simp only [fail] at h
  repeat' split at h
  all_goals cases h
  all_goals first | exact absurd rfl hr | skip
  rename_i h1 h2 h3 _ a ha h4 h5 h6
  refine ⟨⟨Int.not_lt.mp h1, Decidable.not_not.mp h2, Decidable.not_not.mp h3, ha,
    Decidable.not_not.mp h4, Decidable.not_not.mp h5, Decidable.not_not.mp h6⟩, rfl, rfl, ?_⟩
  simp

/-- When every step succeeds, `_create_buffer` returns `size` and leaves the
created buffer, the descriptor closed and the reservation mapped. -/
theorem create_buffer_succeeds (debug : Bool) {os : platform} (p : process)
    (buffer : ring_buffer) {order addr : Nat} (h : all_steps_succeed os order addr) :
    _create_buffer debug os p buffer order
      = outcome.returned
          ({ fds := p.fds,
             maps := (addr, ((one_shl order) <<< 1) % SIZE_MOD) :: p.maps },
            created order addr, one_shl order) := by
  obtain ⟨h1, h2, h3, h4, h5, h6, h7⟩ := h
  unfold _create_buffer
  simp [Int.not_lt.mpr h1, h2, h3, h4, h5, h6, h7, created]

theorem shift_eq_pow {order : Nat} (hk : order < 64) : one_shl order = 2 ^ order := by
  unfold one_shl
  rw [Nat.mod_eq_of_lt hk, Nat.shiftLeft_eq, Nat.one_mul]
  exact Nat.mod_eq_of_lt (Nat.pow_lt_pow_right (by decide) hk)

/-- C14 (as stated, refuted): `ring_buffer_new(76)` succeeds on a platform with
4096-byte pages, every step of `_create_buffer` succeeding, because the shift
`1UL << 76` is carried out as `1UL << 12`; the returned buffer has
`ring_buffer_get_size() == 4096` and `free() == 4096`, not `2 ^ 76`. -/
theorem new_buffer_size_beyond_word :
    all_steps_succeed linux 76 BASE ∧
    ring_buffer_new false linux idle 0 76
      = outcome.returned ({ fds := [], maps := [(BASE, 8192)] }, some (created 76 BASE)) ∧
    ring_buffer_get_size (created 76 BASE) = 4096 ∧
    ring_buffer_get_free (created 76 BASE) = 4096 ∧
    ring_buffer_get_size (created 76 BASE) ≠ 2 ^ 76 :=
  ⟨⟨by decide, by decide, by decide, by decide, by decide, by decide, by decide⟩,
    rfl, by decide, by decide, by decide⟩

/-- C14 (amended): for `order < 64`, whenever `ring_buffer_new(order)` returns a
buffer (in either build), that buffer has `ring_buffer_get_size() == 2 ^ order`,
both offsets 0, `used() == 0` and `free() == 2 ^ order`; and it does return
such a buffer when every step of `_create_buffer` succeeds. -/
theorem new_buffer_is_empty (debug : Bool) (os : platform) (p : process)
    (garbage order : Nat) (hk : order < 64) :
    (∀ p1 b, ring_buffer_new debug os p garbage order = outcome.returned (p1, some b) →
      ring_buffer_get_size b = 2 ^ order ∧ b.write_offset = 0 ∧ b.read_offset = 0 ∧
      ring_buffer_get_used b = 0 ∧ ring_buffer_get_free b = 2 ^ order) ∧
    (∀ addr, all_steps_succeed os order addr →
      ∃ p1, ring_buffer_new debug os p garbage order
        = outcome.returned (p1, some (created order addr))) := by
  have hsz := shift_eq_pow hk
  have hprops : ∀ addr, ring_buffer_get_size (created order addr) = 2 ^ order ∧
      (created order addr).write_offset = 0 ∧ (created order addr).read_offset = 0 ∧
      ring_buffer_get_used (created order addr) = 0 ∧
      ring_buffer_get_free (created order addr) = 2 ^ order := by
    intro addr
    have hu : ring_buffer_get_used (created order addr) = 0 := size_sub_self
    refine ⟨hsz, rfl, rfl, hu, ?_⟩
    unfold ring_buffer_get_free
    rw [hu]
    show size_sub (one_shl order) 0 = 2 ^ order
    rw [hsz]
    exact size_sub_of_le (Nat.pow_lt_pow_right (by decide) hk) (Nat.zero_le _)
  constructor
  · intro p1 b h
    unfold ring_buffer_new at h
    simp only at h
    split at h
    · cases h
    · rename_i p2 b2 r hcb
      split at h
      · cases h
      · rename_i hr
        cases h
        obtain ⟨-, hb, -, -⟩ := create_buffer_nonzero hcb hr
        rw [hb]
        exact hprops _
  · intro addr hall
    have hpos : one_shl order ≠ 0 := by
      rw [hsz]
      exact Nat.pos_iff_ne_zero.mp (Nat.pow_pos (by decide))
    refine ⟨{ fds := p.fds,
              maps := (addr, ((one_shl order) <<< 1) % SIZE_MOD) :: p.maps }, ?_⟩
    unfold ring_buffer_new
    simp only [create_buffer_succeeds debug p _ hall, hpos, if_false]

theorem new_buffer_is_empty_witness :
    ∃ p1, ring_buffer_new false linux idle 0 12
        = outcome.returned (p1, some (created 12 BASE)) ∧
      ring_buffer_get_size (created 12 BASE) = 2 ^ 12 ∧
      (created 12 BASE).write_offset = 0 ∧ (created 12 BASE).read_offset = 0 ∧
      ring_buffer_get_used (created 12 BASE) = 0 ∧
      ring_buffer_get_free (created 12 BASE) = 2 ^ 12 :=
  have h := new_buffer_is_empty false linux idle 0 12 (by decide)
  match h.2 BASE ⟨by decide, by decide, by decide, by decide, by decide, by decide, by decide⟩ with
  | ⟨p1, hp⟩ => ⟨p1, hp, h.1 p1 (created 12 BASE) hp⟩

/-- With page-aligned mappings only, the steps cannot all succeed for a size
that is not a multiple of the page size: the second fixed mapping is at
`data + size`. -/
theorem unaligned_size_fails {os : platform} {order addr : Nat} (hos : page_aligned_mmap os)
    (hk : order < 64) (hsz : 2 ^ order < os.page_size ∨ 2 ^ order % os.page_size ≠ 0)
    (hall : all_steps_succeed os order addr) : False := by
  obtain ⟨-, -, -, h4, -, h6, -⟩ := hall
  rw [shift_eq_pow hk] at h4 h6
  have ha : os.page_size ∣ addr := Nat.dvd_of_mod_eq_zero (hos.1 _ _ h4)
  have hb : os.page_size ∣ addr + 2 ^ order := Nat.dvd_of_mod_eq_zero (hos.2 _ _ _ h6)
  have hc : os.page_size ∣ 2 ^ order := (Nat.dvd_add_right ha).mp hb
  have hpos : 0 < 2 ^ order := Nat.pow_pos (by decide)
  rcases hsz with hlt | hne
  · have := Nat.eq_zero_of_dvd_of_lt hc hlt
    omega
  · exact hne (Nat.mod_eq_zero_of_dvd hc)

/-- In a build with `DEBUG`, `_create_buffer` returns only after every step has
succeeded, and then it returns `size`. -/
theorem create_buffer_debug {os : platform} {p p1 : process} {buffer b1 : ring_buffer}
    {order r : Nat}
    (h : _create_buffer true os p buffer order = outcome.returned (p1, b1, r)) :
    r = one_shl order := by
  unfold _create_buffer at h
  simp only [fail, if_true] at h
  repeat' split at h
  all_goals cases h
  rfl

/-- C15 (as stated, refuted): with a capacity of 4 bytes, below the page size
of 4096, `ring_buffer_new(2)` does not return null in a build with `DEBUG`
(the failed second fixed mapping ends in `assert(0)`), and on a platform that
maps `MAP_FIXED` at an unaligned address it returns a buffer of size 4: the
code has no check of its own. -/
theorem new_below_page_size_not_null :
    2 ^ 2 < linux.page_size ∧
    ring_buffer_new true linux idle 0 2 = outcome.aborted ∧
    2 ^ 2 < lenient.page_size ∧
    ring_buffer_new false lenient idle 0 2
      = outcome.returned ({ fds := [], maps := [(BASE, 8)] }, some (created 2 BASE)) :=
  ⟨by decide, rfl, by decide, rfl⟩

/-- C15 (amended): on a platform whose `mmap` hands out page-aligned addresses
only and maps `MAP_FIXED` at page-aligned addresses only, for every
`order < 64` whose capacity `2 ^ order` is smaller than, or not a multiple of,
the page size, `ring_buffer_new(order)` returns null in a build without `DEBUG`
(and aborts in a build with `DEBUG`); it never returns a buffer. -/
theorem new_fails_below_page_size (os : platform) (p : process) (garbage order : Nat)
    (hos : page_aligned_mmap os) (hk : order < 64)
    (hsz : 2 ^ order < os.page_size ∨ 2 ^ order % os.page_size ≠ 0) :
    (∃ p1, ring_buffer_new false os p garbage order = outcome.returned (p1, none)) ∧
    ring_buffer_new true os p garbage order = outcome.aborted := by
  have hpos : one_shl order ≠ 0 := by
    rw [shift_eq_pow hk]
    exact Nat.pos_iff_ne_zero.mp (Nat.pow_pos (by decide))
  constructor
  · obtain ⟨p1, b1, r, hcb⟩ := create_buffer_returns os p
      { size := one_shl order, read_offset := 0, write_offset := 0,
        data := garbage, store := fun _ => 0 } order
    have hr : r = 0 := by
      by_contra hne
      exact unaligned_size_fails hos hk hsz (create_buffer_nonzero hcb hne).1
    refine ⟨ring_buffer_free p1 b1, ?_⟩
    unfold ring_buffer_new
    simp only [hcb, hr, if_true]
  · unfold ring_buffer_new
    simp only
    split
    · rfl
    · rename_i p1 b1 r hcb
      have hr := create_buffer_debug hcb
      exact absurd (create_buffer_nonzero hcb (by rw [hr]; exact hpos)).1
        (unaligned_size_fails hos hk hsz)

theorem new_fails_below_page_size_witness :
    (∃ p1, ring_buffer_new false linux idle 0 2 = outcome.returned (p1, none)) ∧
    ring_buffer_new true linux idle 0 2 = outcome.aborted :=
  new_fails_below_page_size linux idle 0 2
    ⟨fun len a h => by
        simp only [linux] at h
        split at h
        · cases h
        · cases h
          decide,
     fun addr len r h => by
        simp only [linux] at h
        split at h
        · rename_i hc
          exact hc.1
        · cases h⟩
    (by decide) (Or.inl (by decide))

/-- C16 (the code at the failing input): `ring_buffer_new(2)` in a build
without `DEBUG` on a platform with 4096-byte pages, the repository's own test
of a failed initialization.  The second fixed mapping fails; null is returned
and the reservation is unmapped, but descriptor 3 from `mkstemp` is still
open.  The same happens when `ftruncate` fails.  On the path where every step
succeeds (order 12) the descriptor is closed. -/
theorem failed_creation_leaks_descriptor :
    ring_buffer_new false linux idle 0 2
      = outcome.returned ({ fds := [3], maps := [] }, none) ∧
    ring_buffer_new false no_space idle 0 12
      = outcome.returned ({ fds := [3], maps := [] }, none) ∧
    ring_buffer_new false linux idle 0 12
      = outcome.returned ({ fds := [], maps := [(BASE, 8192)] }, some (created 12 BASE)) :=
  ⟨rfl, rfl, rfl⟩

/-! ### The buffer as a queue -/

theorem range_map_bytes_at (D : List byte_t) : (List.range D.length).map (bytes_at D) = D := by
  apply List.ext_getElem
  · simp
  · intro i h1 h2
    simp [bytes_at, List.getD, List.getElem?_eq_getElem h2]

/-- An accepted write appends the data to the content. -/
theorem content_write {b : ring_buffer} (data : Nat → byte_t) {n : Nat}
    (ok : offsets_ok b) (hn : n ≤ ring_buffer_get_free b) :
    ∃ b1, ring_buffer_write b data n = some (b1, n) ∧ b1.size = b.size ∧
      content b1 = content b ++ (List.range n).map data := by
  have hu := used_eq ok
  have hf := free_eq ok
  obtain ⟨b1, hw, -, hs1, -, hr1, -, hu1, hnew, hold⟩ := write_accepted_state data ok hn
  obtain ⟨h1, h2, h3, h4⟩ := ok
  refine ⟨b1, hw, hs1, ?_⟩
  unfold content
  rw [hu1, hr1, hs1, List.range_add, List.map_append, List.map_map]
  congr 1
  · apply List.map_congr_left
    intro i hi
    rw [List.mem_range] at hi
    apply hold
    intro j hj
    have hd : (b.read_offset + i) % b.size
        ≠ (b.read_offset + (ring_buffer_get_used b + j)) % b.size :=
      offsets_distinct (by omega) (by omega)
    rw [show b.write_offset + j = b.read_offset + (ring_buffer_get_used b + j) by omega]
    exact hd
  · apply List.map_congr_left
    intro j hj
    rw [List.mem_range] at hj
    have := hnew j hj
    rw [show b.write_offset + j = b.read_offset + (ring_buffer_get_used b + j) by omega] at this
    exact this

/-- A commit of at most `used()` bytes drops that many bytes from the front of
the content. -/
theorem content_commit_read {b : ring_buffer} {n : Nat}
    (ok : offsets_ok b) (hn : n ≤ ring_buffer_get_used b) :
    content (ring_buffer_commit_read b n) = (content b).drop n := by
  obtain ⟨-, hs, -, hst, hro, hu⟩ := commit_read_ok ok hn
  unfold content
  rw [hs, hst, hro, ← List.map_drop]
  have hsplit : ring_buffer_get_used b = n + ring_buffer_get_used (ring_buffer_commit_read b n) := by
    omega
  rw [hsplit, List.range_add, List.drop_left' (List.length_range n), List.map_map]
  apply List.map_congr_left
  intro i _
  show b.store (((b.read_offset + n) % b.size + i) % b.size)
    = b.store ((b.read_offset + (n + i)) % b.size)
  rw [Nat.mod_add_mod, Nat.add_assoc]

/-- C18: in every reached state, with the content of the buffer being the bytes
at offsets `read_offset .. write_offset - 1` of the doubled mapping: the
content is `used()` bytes long, at most `size`; `ring_buffer_write(D, len(D))`
does what appending `D` to a queue of capacity `size` does (accepted with
`len(D)` returned and content `old ++ D` when `len(D) <= free()`, so no unread
byte is overwritten, refused with 0 and no change otherwise); and
`ring_buffer_commit_read(n)` with `n <= used()` drops the first `n` bytes of the
content, also when it normalizes. -/
theorem ring_buffer_is_queue (b : ring_buffer) (h : Reached b) :
    (content b).length = ring_buffer_get_used b ∧ (content b).length ≤ b.size ∧
    (∀ D : List byte_t, D.length ≤ ring_buffer_get_free b →
      ∃ b1, ring_buffer_write b (bytes_at D) D.length = some (b1, D.length) ∧
        content b1 = content b ++ D) ∧
    (∀ D : List byte_t,
      ∃ b1 n, ring_buffer_write b (bytes_at D) D.length = some (b1, n) ∧
        (as_queue b).enqueue D = (as_queue b1, n)) ∧
    (∀ n, n ≤ ring_buffer_get_used b →
      content (ring_buffer_commit_read b n) = (content b).drop n ∧
      as_queue (ring_buffer_commit_read b n) = (as_queue b).dequeue n) := by
  have ok := reached_ok h
  have hu := used_eq ok
  have hf := free_eq ok
  have hlen : (content b).length = ring_buffer_get_used b := by simp [content]
  have happ : ∀ D : List byte_t, D.length ≤ ring_buffer_get_free b →
      ∃ b1, ring_buffer_write b (bytes_at D) D.length = some (b1, D.length) ∧
        b1.size = b.size ∧ content b1 = content b ++ D := by
    intro D hD
    obtain ⟨b1, hw, hs, hc⟩ := content_write (bytes_at D) ok hD
    rw [range_map_bytes_at] at hc
    exact ⟨b1, hw, hs, hc⟩
  refine ⟨hlen, ?_, ?_, ?_, ?_⟩
  · rw [hlen, hu]
    obtain ⟨h1, h2, -, -⟩ := ok
    omega
  · intro D hD
    obtain ⟨b1, hw, -, hc⟩ := happ D hD
    exact ⟨b1, hw, hc⟩
  · intro D
    have hfree : ring_buffer_get_free b = b.size - (content b).length := by
      rw [hlen, hf, hu]
    by_cases hD : ring_buffer_get_free b < D.length
    · refine ⟨b, 0, by simp [ring_buffer_write, hD], ?_⟩
      rw [hfree] at hD
      simp [byte_queue.enqueue, as_queue, hD]
    · obtain ⟨b1, hw, hs, hc⟩ := happ D (Nat.le_of_not_lt hD)
      refine ⟨b1, D.length, hw, ?_⟩
      rw [hfree] at hD
      simp [byte_queue.enqueue, as_queue, hD, hs, hc]
  · intro n hn
    have hc := content_commit_read ok hn
    obtain ⟨-, hs, -, -, -, -⟩ := commit_read_ok ok hn
    refine ⟨hc, ?_⟩
    simp [byte_queue.dequeue, as_queue, hs, hc]

theorem ring_buffer_is_queue_witness :
    (content amid_test_calls).length = ring_buffer_get_used amid_test_calls ∧
    (content amid_test_calls).length ≤ amid_test_calls.size ∧
    (∃ b1, ring_buffer_write amid_test_calls (bytes_at [1, 2, 3]) [1, 2, 3].length
        = some (b1, [1, 2, 3].length) ∧
      content b1 = content amid_test_calls ++ [1, 2, 3]) ∧
    (∃ b1 n, ring_buffer_write amid_test_calls (bytes_at fill_bytes) fill_bytes.length
        = some (b1, n) ∧
      (as_queue amid_test_calls).enqueue fill_bytes = (as_queue b1, n)) ∧
    content (ring_buffer_commit_read amid_test_calls 3100)
      = (content amid_test_calls).drop 3100 ∧
    as_queue (ring_buffer_commit_read amid_test_calls 3100)
      = (as_queue amid_test_calls).dequeue 3100 :=
  have h := ring_buffer_is_queue amid_test_calls
    (reachable_reached ⟨12, BASE, test_calls.take 5, amid_log, by decide, by decide, rfl⟩)
  ⟨h.1, h.2.1, h.2.2.1 [1, 2, 3] (by decide), h.2.2.2.1 fill_bytes,
    h.2.2.2.2 3100 (by decide)⟩

end RingBuffer
